import Mathlib

/-!
Verification of the `ds` data-structure library (radix trie, TTL scheduler,
session manager) against its design specification.

The Go sources are shallowly embedded:

* runes (Unicode code points) are modelled as `Nat`, keys as `List Nat`;
* `time.Time` and `time.Duration` are modelled as `Int` (the zero `time.Time`
  is modelled as `0`, real instants are positive and far from `0`);
* Go maps are modelled as association lists (`dictGet?` / `dictSet` / `dictDel`);
* the value cell `(Value V, HasValue bool)` of a trie node is modelled as
  `Option V`;
* iterative loops of the source are translated to structurally recursive
  functions; loops whose termination is not structural carry an explicit
  `fuel : Nat` argument that strictly exceeds the number of iterations the
  Go loop can perform, so the translated function never hits the fuel floor
  on the arguments the wrappers supply.

Each claim theorem carries the claim id in its doc comment.
-/

/-! ### Association-list models of Go maps -/

/-- Lookup in a Go map: `m[k]` together with the `ok` flag (`none` = absent). -/
def dictGet? {K A : Type} [DecidableEq K] : List (K × A) → K → Option A
  | [], _ => none
  | (k, a) :: rest, q => if k = q then some a else dictGet? rest q

/-- Lookup in a Go map returning the zero value `d` when the key is absent. -/
def dictGetD {K A : Type} [DecidableEq K] (m : List (K × A)) (q : K) (d : A) : A :=
  (dictGet? m q).getD d

/-- Go map assignment `m[k] = a` (replaces an existing binding). -/
def dictSet {K A : Type} [DecidableEq K] : List (K × A) → K → A → List (K × A)
  | [], q, a => [(q, a)]
  | (k, b) :: rest, q, a => if k = q then (q, a) :: rest else (k, b) :: dictSet rest q a

/-- Go map deletion `delete(m, k)`. -/
def dictDel {K A : Type} [DecidableEq K] : List (K × A) → K → List (K × A)
  | [], _ => []
  | (k, b) :: rest, q => if k = q then rest else (k, b) :: dictDel rest q

/-- Insertion into a slice at an index, `slices.Insert(l, i, [a])`. -/
def listInsertAt {A : Type} (l : List A) (i : Nat) (a : A) : List A :=
  l.take i ++ a :: l.drop i

/-- Membership insertion into a Go map used as a set (`m[k] = struct{}{}`). -/
def setInsert {K : Type} [DecidableEq K] (l : List K) (k : K) : List K :=
  if k ∈ l then l else l ++ [k]

/-! ### The `binSearch` helper shared by the trie sources

Go (`trie.go`):
```
func binSearch(n int, cmp func(int) int) (i int, found bool) {
    i, j := 0, n
    for i < j {
        h := int(uint(i+j) >> 1)
        if cmp(h) > 0 { i = h + 1 } else { j = h }
    }
    return i, i < n && cmp(i) == 0
}
```
The loop shrinks `j - i` on every iteration, so `fuel = n` iterations always
suffice for the initial call with `i, j := 0, n`. -/
def binSearchLoop (cmp : Nat → Int) : Nat → Nat → Nat → Nat
  | 0, i, _ => i
  | fuel + 1, i, j =>
    if i < j then
      let h := (i + j) / 2
      if cmp h > 0 then binSearchLoop cmp fuel (h + 1) j else binSearchLoop cmp fuel i h
    else i

/-- `binSearch` of the trie sources. -/
def binSearch (n : Nat) (cmp : Nat → Int) : Nat × Bool :=
  let i := binSearchLoop cmp n 0 n
  (i, decide (i < n) && decide (cmp i = 0))

/-! ### Radix trie (`trie.go` / the second trie source file)

`Node[V]` owns a rune prefix, an optional value and a sorted branch list. -/

/-- A trie node: `Node[V] { Prefix []rune; Value V; HasValue bool; Branches []*Node[V] }`.
The `(Value, HasValue)` pair is modelled as `Option V`. -/
inductive TNode (V : Type) : Type
  | mk (pfx : List Nat) (val : Option V) (branches : List (TNode V)) : TNode V

/-- The rune sequence owned by a node (`Node.Prefix`). -/
def TNode.pfx {V : Type} : TNode V → List Nat
  | .mk p _ _ => p

/-- The optional value of a node (`Node.Value` with `Node.HasValue`). -/
def TNode.val {V : Type} : TNode V → Option V
  | .mk _ v _ => v

/-- The child list of a node (`Node.Branches`). -/
def TNode.branches {V : Type} : TNode V → List (TNode V)
  | .mk _ _ b => b

/-- Placeholder node used as the default of out-of-range slice reads; the
sources never perform such reads. -/
def dfltNode (V : Type) : TNode V := .mk [] none []

/-- The `cmp` closure of `Branches.find`: compare rune `r` with rune `v`. -/
def branchCmp (r v : Nat) : Int := if r > v then 1 else if r < v then -1 else 0

/-- `Branches.find`: binary search for the branch whose prefix starts with `r`;
returns the index and a match flag (the index is the insertion point when
there is no match). -/
def findBranch {V : Type} (bs : List (TNode V)) (r : Nat) : Nat × Bool :=
  binSearch bs.length (fun i => branchCmp r (((bs.getD i (dfltNode V)).pfx).headD 0))

/-! Tree depth, used only to compute sufficient fuel for the walk loops. -/
mutual

def TNode.depth {V : Type} : TNode V → Nat
  | .mk _ _ bs => 1 + depthList bs

def depthList {V : Type} : List (TNode V) → Nat
  | [] => 0
  | b :: bs => max (TNode.depth b) (depthList bs)

end

/-- The trie: a root sentinel node (empty prefix, no value). -/
structure Trie (V : Type) where
  root : TNode V

/-- `New[V]()`. -/
def Trie.new (V : Type) : Trie V := ⟨.mk [] none []⟩

/-! `Get`.  The Go loop walks `qry` against the node prefix with an index `i`;
the translation consumes the two lists element-wise.  Arguments:
`getGo fuel node qry prest` where `prest` is the unconsumed part of
`node.pfx`.  Mirroring the source, the `qry = []` check comes first and
returns the node value *regardless of whether the node prefix was fully
consumed*.  One fuel unit is spent per loop step (character match or descent);
a walk performs at most `qry.length` matches and `depth` descents. -/
def getGo {V : Type} : Nat → TNode V → List Nat → List Nat → Option V
  | 0, _, _, _ => none
  | _ + 1, node, [], _ => node.val
  | fuel + 1, node, q :: qs, [] =>
    let fr := findBranch node.branches q
    if fr.2 then
      let child := node.branches.getD fr.1 (dfltNode V)
      getGo fuel child (q :: qs) child.pfx
    else none
  | fuel + 1, node, q :: qs, p :: ps =>
    if q = p then getGo fuel node qs ps else none

/-- `Trie.Get`: `none` models `(zero, false)`. -/
def Trie.Get {V : Type} (t : Trie V) (key : List Nat) : Option V :=
  match key with
  | [] => none
  | q :: qs =>
    let fr := findBranch t.root.branches q
    if fr.2 then
      let child := t.root.branches.getD fr.1 (dfltNode V)
      getGo (key.length + TNode.depth t.root + 1) child (q :: qs) child.pfx
    else none

/-! `Put`.  `putGo fuel value pfxDone krest prest nval nbranches` rebuilds the
current node whose prefix is `pfxDone ++ prest` (`pfxDone` is the part already
matched against the key), with `krest` the unconsumed key. -/
def putGo {V : Type} (value : V) :
    Nat → List Nat → List Nat → List Nat → Option V → List (TNode V) →
    Option V × TNode V
  | 0, pfxDone, _, prest, nval, nbr => (none, .mk (pfxDone ++ prest) nval nbr)
  | _ + 1, pfxDone, [], [], nval, nbr =>
    -- end of query, node prefix fully matched: overwrite the value
    (nval, .mk pfxDone (some value) nbr)
  | _ + 1, pfxDone, [], p :: ps, nval, nbr =>
    -- end of query inside the node prefix: split the node
    (none, .mk pfxDone (some value) [.mk (p :: ps) nval nbr])
  | fuel + 1, pfxDone, k :: ks, [], nval, nbr =>
    -- end of node prefix: descend into the branch for `k` or insert a new leaf
    let fr := findBranch nbr k
    if fr.2 then
      let child := nbr.getD fr.1 (dfltNode V)
      let res := putGo value fuel [] (k :: ks) child.pfx child.val child.branches
      (res.1, .mk pfxDone nval (nbr.set fr.1 res.2))
    else
      (none, .mk pfxDone nval (listInsertAt nbr fr.1 (.mk (k :: ks) (some value) [])))
  | fuel + 1, pfxDone, k :: ks, p :: ps, nval, nbr =>
    if k = p then putGo value fuel (pfxDone ++ [p]) ks ps nval nbr
    else
      -- mismatch inside the node prefix: split into two leaves
      let newNode : TNode V := .mk (k :: ks) (some value) []
      let splitNode : TNode V := .mk (p :: ps) nval nbr
      if p > k then (none, .mk pfxDone none [newNode, splitNode])
      else (none, .mk pfxDone none [splitNode, newNode])

/-- `Trie.Put`: returns `(old, replaced, new trie)`; empty keys are ignored. -/
def Trie.Put {V : Type} (t : Trie V) (key : List Nat) (value : V) :
    Option V × Bool × Trie V :=
  match key with
  | [] => (none, false, t)
  | k :: ks =>
    let bs := t.root.branches
    let fr := findBranch bs k
    if fr.2 then
      let child := bs.getD fr.1 (dfltNode V)
      let res := putGo value (key.length + TNode.depth t.root + 1)
        [] (k :: ks) child.pfx child.val child.branches
      (res.1, res.1.isSome, ⟨.mk t.root.pfx t.root.val (bs.set fr.1 res.2)⟩)
    else
      (none, false,
        ⟨.mk t.root.pfx t.root.val (listInsertAt bs fr.1 (.mk (k :: ks) (some value) []))⟩)

/-! `Delete` of `trie.go` (the 2024 file).  After clearing the value the Go
loop walks the recorded parent path towards the root and deletes every node
whose branch list is empty — without consulting `HasValue` of the ancestors.
The recursive translation reports to the parent whether the child vanished:
`none` = key not found, `some (v, none)` = found and the node disappeared,
`some (v, some n2)` = found and the node was replaced by `n2`. -/
def delGo {V : Type} : Nat → TNode V → List Nat → List Nat →
    Option (V × Option (TNode V))
  | 0, _, _, _ => none
  | _ + 1, node, [], _ =>
    match node.val with
    | none => none
    | some v =>
      if node.branches.isEmpty then some (v, none)
      else some (v, some (.mk node.pfx none node.branches))
  | fuel + 1, node, q :: qs, [] =>
    let fr := findBranch node.branches q
    if fr.2 then
      let child := node.branches.getD fr.1 (dfltNode V)
      match delGo fuel child (q :: qs) child.pfx with
      | none => none
      | some (v, some c2) =>
        some (v, some (.mk node.pfx node.val (node.branches.set fr.1 c2)))
      | some (v, none) =>
        let bs2 := node.branches.eraseIdx fr.1
        -- the source deletes the node when its branch list became empty,
        -- even when the node still holds a value
        if bs2.isEmpty then some (v, none)
        else some (v, some (.mk node.pfx node.val bs2))
    else none
  | fuel + 1, node, q :: qs, p :: ps =>
    if q = p then delGo fuel node qs ps else none

/-- `Trie.Delete` of `trie.go`: returns `(removed value, new trie)`. -/
def Trie.Delete {V : Type} (t : Trie V) (key : List Nat) : Option V × Trie V :=
  match key with
  | [] => (none, t)
  | q :: qs =>
    let fr := findBranch t.root.branches q
    if fr.2 then
      let child := t.root.branches.getD fr.1 (dfltNode V)
      match delGo (key.length + TNode.depth t.root + 1) child (q :: qs) child.pfx with
      | none => (none, t)
      | some (v, some c2) =>
        (some v, ⟨.mk t.root.pfx t.root.val (t.root.branches.set fr.1 c2)⟩)
      | some (v, none) =>
        (some v, ⟨.mk t.root.pfx t.root.val (t.root.branches.eraseIdx fr.1)⟩)
    else (none, t)

/-! `Delete` of the second trie source file (the 2025 one).  The backtracking
loop removes a child that ended up with no branches and no value, and merges a
parent that is left with a single branch and no value of its own into that
branch.  The terminal node itself is returned updated; the parent (or, for the
root child, the top-level wrapper) decides removal. -/
def delMGo {V : Type} : Nat → TNode V → List Nat → List Nat →
    Option (V × TNode V)
  | 0, _, _, _ => none
  | _ + 1, node, [], _ =>
    match node.val with
    | none => none
    | some v => some (v, .mk node.pfx none node.branches)
  | fuel + 1, node, q :: qs, [] =>
    let fr := findBranch node.branches q
    if fr.2 then
      let child := node.branches.getD fr.1 (dfltNode V)
      match delMGo fuel child (q :: qs) child.pfx with
      | none => none
      | some (v, c2) =>
        if c2.branches.isEmpty && c2.val.isNone then
          let bs2 := node.branches.eraseIdx fr.1
          match bs2, node.val.isNone with
          | [rc], true =>
            -- parent keeps only one branch and has no value: merge
            some (v, .mk (node.pfx ++ rc.pfx) rc.val rc.branches)
          | bs2x, _ => some (v, .mk node.pfx node.val bs2x)
        else some (v, .mk node.pfx node.val (node.branches.set fr.1 c2))
    else none
  | fuel + 1, node, q :: qs, p :: ps =>
    if q = p then delMGo fuel node qs ps else none

/-- `Trie.DeleteM`, the merging `Delete` of the second trie source file. -/
def Trie.DeleteM {V : Type} (t : Trie V) (key : List Nat) : Option V × Trie V :=
  match key with
  | [] => (none, t)
  | q :: qs =>
    let fr := findBranch t.root.branches q
    if fr.2 then
      let child := t.root.branches.getD fr.1 (dfltNode V)
      match delMGo (key.length + TNode.depth t.root + 1) child (q :: qs) child.pfx with
      | none => (none, t)
      | some (v, c2) =>
        -- special case for the root child: delete it when empty, never merge the root
        if c2.branches.isEmpty && c2.val.isNone then
          (some v, ⟨.mk t.root.pfx t.root.val (t.root.branches.eraseIdx fr.1)⟩)
        else (some v, ⟨.mk t.root.pfx t.root.val (t.root.branches.set fr.1 c2)⟩)
    else (none, t)

/-! `Prefixes`.  The walk accumulates `scanned`, emits `scanned ++ node.pfx`
whenever a node prefix is fully consumed and the node holds a value, and the
`qry = []` check comes first, so the query itself is never emitted. -/
def prefixesGo {V : Type} : Nat → TNode V → List Nat → List Nat → List Nat →
    List (List Nat)
  | 0, _, _, _, _ => []
  | _ + 1, _, _, [], _ => []
  | fuel + 1, node, scanned, q :: qs, [] =>
    let sc2 := scanned ++ node.pfx
    let emitted := if node.val.isSome then [sc2] else []
    let fr := findBranch node.branches q
    if fr.2 then
      let child := node.branches.getD fr.1 (dfltNode V)
      emitted ++ prefixesGo fuel child sc2 (q :: qs) child.pfx
    else emitted
  | fuel + 1, node, scanned, q :: qs, p :: ps =>
    if q = p then prefixesGo fuel node scanned qs ps else []

/-- `Trie.Prefixes`: the stored keys that lie on the walk towards `key`. -/
def Trie.Prefixes {V : Type} (t : Trie V) (key : List Nat) : List (List Nat) :=
  match key with
  | [] => []
  | q :: qs =>
    let fr := findBranch t.root.branches q
    if fr.2 then
      let child := t.root.branches.getD fr.1 (dfltNode V)
      prefixesGo (key.length + TNode.depth child + 1) child [] (q :: qs) child.pfx
    else []

/-! The set of stored keys, read off the tree structure the way `EnumKeys`
enumerates it (pre-order, value before children). -/
mutual

def keysOfNode {V : Type} (scanned : List Nat) : TNode V → List (List Nat)
  | .mk p v bs =>
    (if v.isSome then [scanned ++ p] else []) ++ keysOfList (scanned ++ p) bs

def keysOfList {V : Type} (scanned : List Nat) : List (TNode V) → List (List Nat)
  | [] => []
  | b :: bs => keysOfNode scanned b ++ keysOfList scanned bs

end

/-- All keys stored in the trie. -/
def Trie.keys {V : Type} (t : Trie V) : List (List Nat) := keysOfNode [] t.root

/-! Structural well-formedness, the data-model invariants of the design:
children are sorted strictly ascending by first rune and node prefixes are
non-empty below the root (compactness is deliberately not required — deletes
may leave non-compact trees). -/

/-- The first rune of a node (Go `node.Prefix[0]`; junk `0` on an empty
prefix, which well-formed tries exclude). -/
def nodeHead {V : Type} (b : TNode V) : Nat := b.pfx.headD 0

/-- Branches are sorted strictly ascending by first rune. -/
def headsSorted {V : Type} (bs : List (TNode V)) : Bool :=
  decide (List.Pairwise (fun a b : TNode V => nodeHead a < nodeHead b) bs)

mutual

def nodeWF {V : Type} : TNode V → Bool
  | .mk p _ bs => (!p.isEmpty) && headsSorted bs && listWF bs

def listWF {V : Type} : List (TNode V) → Bool
  | [] => true
  | b :: bs => nodeWF b && listWF bs

end

/-- Well-formedness of a whole trie: sentinel root plus well-formed branches. -/
def Trie.WF {V : Type} (t : Trie V) : Bool :=
  t.root.pfx.isEmpty && t.root.val.isNone && headsSorted t.root.branches &&
    listWF t.root.branches

/-! Compaction invariant of the design: no node has no value and exactly one
child (the root sentinel is exempt). -/
mutual

def compactNode {V : Type} : TNode V → Bool
  | .mk _ v bs => !(v.isNone && decide (bs.length = 1)) && compactList bs

def compactList {V : Type} : List (TNode V) → Bool
  | [] => true
  | b :: bs => compactNode b && compactList bs

end

/-- The compaction invariant over all non-root nodes of a trie. -/
def Trie.Compact {V : Type} (t : Trie V) : Bool := compactList t.root.branches

/-- The strict prefixes of `s`, shortest first. -/
def strictPrefixList (s : List Nat) : List (List Nat) :=
  (List.range s.length).map fun n => s.take n

/-- The specification of `Prefixes`: exactly the stored keys that are strict
prefixes of `s`, ordered from shortest to longest. -/
def Trie.prefixesSpec {V : Type} (t : Trie V) (s : List Nat) : List (List Nat) :=
  (strictPrefixList s).filter (fun p => decide (p ∈ t.keys))

/-! ### TTL scheduler (`ttl.go`)

The worker goroutine and each caller method hand commands over rendezvous
channels, so each `Put` / `Delete` executes as an atomic sequence of worker
steps.  The embedding therefore threads an explicit scheduler state through
the caller methods and worker branches; each transition additionally returns
the list of keys for which the expiration callback fired during that
transition.  `time.Time` and `time.Duration` are `Int`; the zero `time.Time`
(the value a missing `dict` entry yields) is `0`. -/

/-- Errors surfaced by the scheduler. -/
inductive TtlErr : Type
  | notFound
  | notRunning
deriving DecidableEq

/-- The scheduler state: the shared maps plus the worker-local variables
`key`, `when`, `waiting` (`curKey`, `curWhen`, `waiting` here).  `zeroK`
models Go's `*new(K)` zero value. -/
structure TtlState (K : Type) where
  zeroK : K
  keys : List K
  queue : List (Int × K)
  dict : List (K × Int)
  running : Bool
  waiting : Bool
  curKey : K
  curWhen : Int

/-- `New` (the state right after the worker started). -/
def Ttl.new {K : Type} (zeroK : K) : TtlState K :=
  ⟨zeroK, [], [], [], true, false, zeroK, 0⟩

/-- `doOnTimeout`: remove the key from `keys` and fire the callback. -/
def doOnTimeout {K : Type} [DecidableEq K] (s : TtlState K) (k : K) :
    TtlState K × List K :=
  ({ s with keys := s.keys.erase k }, [k])

/-- `insertTimeout`: insert `(when, key)` into the deadline-sorted queue via
binary search and record the deadline in `dict`. -/
def insertTimeout {K : Type} [DecidableEq K] (s : TtlState K) (t : Int × K) :
    TtlState K :=
  let i := binSearchLoop
    (fun h => if (s.queue.getD h (0, s.zeroK)).1 < t.1 then 1 else 0)
    s.queue.length 0 s.queue.length
  { s with queue := listInsertAt s.queue i t, dict := dictSet s.dict t.2 t.1 }

/-- The `cmp` helper of `findTimeout`. -/
def ttlCmp {K : Type} (queue : List (Int × K)) (zeroK : K) (v : Int) (i : Nat) : Int :=
  let w := (queue.getD i (0, zeroK)).1
  if v < w then -1 else if w < v then 1 else 0

/-- `findTimeout`: binary search of the queue by deadline with an early exit
on an exact hit.  The interval shrinks every iteration, so `fuel` equal to the
queue length suffices. -/
def findTimeoutLoop {K : Type} (queue : List (Int × K)) (zeroK : K) (v : Int) :
    Nat → Nat → Nat → Nat × Bool
  | 0, i, _ => (i, decide (i < queue.length) && decide (ttlCmp queue zeroK v i = 0))
  | fuel + 1, i, j =>
    if i < j then
      let m := (i + j) / 2
      let c := ttlCmp queue zeroK v m
      if c = 1 then findTimeoutLoop queue zeroK v fuel (m + 1) j
      else if c = 0 then (m, true)
      else findTimeoutLoop queue zeroK v fuel i m
    else (i, decide (i < queue.length) && decide (ttlCmp queue zeroK v i = 0))

/-- `findTimeout` entry point. -/
def findTimeout {K : Type} (s : TtlState K) (v : Int) : Nat × Bool :=
  findTimeoutLoop s.queue s.zeroK v s.queue.length 0 s.queue.length

/-- `advanceQueue`: pop entries whose deadline has passed (firing their
callbacks) until a future deadline is armed or the queue is empty.  Each
iteration pops one entry, so `fuel` exceeding the queue length suffices.
When the queue drains, the worker-local `key`/`when` take Go's zero values. -/
def advanceLoop {K : Type} [DecidableEq K] (now : Int) :
    Nat → TtlState K → TtlState K × List K
  | 0, s => (s, [])
  | fuel + 1, s =>
    match s.queue with
    | [] => ({ s with waiting := false, curKey := s.zeroK, curWhen := 0 }, [])
    | (w, k) :: rest =>
      let s1 := { s with queue := rest, dict := dictDel s.dict k }
      if w - now ≤ 0 then
        let r2 := doOnTimeout s1 k
        let r3 := advanceLoop now fuel r2.1
        (r3.1, r2.2 ++ r3.2)
      else ({ s1 with waiting := true, curKey := k, curWhen := w }, [])

/-- `advanceQueue` entry point (the caller's `waiting.Store(b)` is folded in). -/
def advanceQueue {K : Type} [DecidableEq K] (s : TtlState K) (now : Int) :
    TtlState K × List K :=
  advanceLoop now (s.queue.length + 1) s

/-- The `addTimeout` branch of the worker loop. -/
def workerAdd {K : Type} [DecidableEq K] (s : TtlState K) (now : Int)
    (t : Int × K) : TtlState K × List K :=
  if t.1 < now then
    -- timeout is before now: fire immediately without touching the queue
    doOnTimeout s t.2
  else if s.waiting = false then
    if 0 < t.1 - now then
      ({ s with curKey := t.2, curWhen := t.1, waiting := true }, [])
    else
      let r1 := doOnTimeout s t.2
      let r2 := advanceQueue r1.1 now
      (r2.1, r1.2 ++ r2.2)
  else if t.1 < s.curWhen then
    -- new timeout precedes the armed one: re-queue the armed entry
    let s1 := insertTimeout s (s.curWhen, s.curKey)
    if 0 < t.1 - now then
      ({ s1 with curKey := t.2, curWhen := t.1, waiting := true }, [])
    else
      let r1 := doOnTimeout s1 t.2
      let r2 := advanceQueue r1.1 now
      (r2.1, r1.2 ++ r2.2)
  else (insertTimeout s t, [])

/-- The `delTimeout` branch of the worker loop.  Note the second branch looks
the deadline up as `self.dict[key]` — `key` being the worker-local armed-key
variable (`curKey` here), exactly as in the source, not the key `k` being
deleted. -/
def workerDel {K : Type} [DecidableEq K] (s : TtlState K) (now : Int) (k : K) :
    TtlState K × Option TtlErr × List K :=
  if k = s.curKey ∧ s.waiting = true then
    let r := advanceQueue s now
    (r.1, none, r.2)
  else
    let fr := findTimeout s (dictGetD s.dict s.curKey 0)
    if fr.2 then
      ({ s with queue := s.queue.eraseIdx fr.1, dict := dictDel s.dict k }, none, [])
    else (s, some .notFound, [])

/-- `TTL.Put`: record the key, ask the worker to delete any previous entry
(ignoring the result), then ask it to add `(now + duration, key)`. -/
def Ttl.Put {K : Type} [DecidableEq K] (s : TtlState K) (k : K) (dur : Int)
    (now : Int) : TtlState K × Option TtlErr × List K :=
  if s.running = false then (s, some .notRunning, [])
  else
    let s1 := { s with keys := setInsert s.keys k }
    let r2 := workerDel s1 now k
    let r3 := workerAdd r2.1 now (now + dur, k)
    (r3.1, none, r2.2.2 ++ r3.2)

/-- `TTL.Delete`: remove the key from `keys` and ask the worker to delete the
pending entry, returning the worker's verdict. -/
def Ttl.Delete {K : Type} [DecidableEq K] (s : TtlState K) (k : K) (now : Int) :
    TtlState K × Option TtlErr × List K :=
  if s.running = false then (s, some .notRunning, [])
  else
    let s1 := { s with keys := s.keys.erase k }
    workerDel s1 now k

/-- The ticker-fire branch of the worker loop. -/
def Ttl.tick {K : Type} [DecidableEq K] (s : TtlState K) (now : Int) :
    TtlState K × List K :=
  if s.waiting = true then
    let s1 := { s with dict := dictDel s.dict s.curKey }
    let r1 := doOnTimeout s1 s.curKey
    let r2 := advanceQueue r1.1 now
    (r2.1, r1.2 ++ r2.2)
  else advanceQueue s now

/-- `TTL.Exists`. -/
def Ttl.Exists {K : Type} [DecidableEq K] (s : TtlState K) (k : K) : Bool :=
  s.keys.contains k

/-- `TTL.Len`: queued entries plus the armed one. -/
def Ttl.Len {K : Type} (s : TtlState K) : Nat :=
  s.queue.length + (if s.waiting then 1 else 0)

/-- A key is pending when it is armed or sits in the queue (the notion the
specification quantifies over). -/
def Ttl.pending {K : Type} [DecidableEq K] (s : TtlState K) (k : K) : Bool :=
  (s.waiting && decide (s.curKey = k)) || s.queue.any (fun t => decide (t.2 = k))

/-- Number of pending entries a key occupies (armed slot and queue together). -/
def Ttl.pendingCount {K : Type} [DecidableEq K] (s : TtlState K) (k : K) : Nat :=
  (if s.waiting && decide (s.curKey = k) then 1 else 0) +
    (s.queue.filter (fun t => decide (t.2 = k))).length

/-! ### Session manager (`sessions.go`)

The manager composes the bookkeeping maps with the TTL scheduler.  The
scheduler calls the manager makes (`timeouts.Put` on a running scheduler
always returns `nil`, and `timeouts.Delete`'s result is discarded by the
source) do not feed back into the bookkeeping, so the embedding models the
bookkeeping maps and leaves the scheduler sub-state out.  Counters are `Int`
(Go `int`).  The `newKey()` factory output is passed in as the `sid`
argument. -/

/-- Errors of the session manager (including its internal bug errors). -/
inductive SErr : Type
  | notFound
  | maxSessions
  | maxUserSessions
  | bugCountZero
  | bugUserMissing
deriving DecidableEq

/-- The manager state (`Map[K]`). -/
structure SMap (K : Type) where
  userCounts : List (K × Int)
  userToSessions : List (K × List K)
  sessionToUser : List (K × K)
  sessionDurations : List (K × Int)
  maxSessions : Int
  maxSessionsPerUser : Int
  totalCount : Int

/-- `New(maxSessions, maxSessionsPerUser, newKey)`. -/
def SMap.new (K : Type) (maxS maxU : Int) : SMap K :=
  ⟨[], [], [], [], maxS, maxU, 0⟩

/-- `Map.Create`: issue an unlinked session. -/
def SMap.Create {K : Type} [DecidableEq K] (m : SMap K) (sid : K) (dur : Int) :
    SMap K × Option K × Option SErr :=
  if m.totalCount = m.maxSessions then (m, none, some .maxSessions)
  else
    ({ m with sessionDurations := dictSet m.sessionDurations sid dur,
              totalCount := m.totalCount + 1 }, some sid, none)

/-- The linking tail shared by `Link` and `CreateLinked`: put the session in
the user's set, point the session at the user and bump the user's counter. -/
def SMap.linkDo {K : Type} [DecidableEq K] (m : SMap K) (sid uid : K) : SMap K :=
  let sets := dictGetD m.userToSessions uid []
  { m with userToSessions := dictSet m.userToSessions uid (setInsert sets sid),
           sessionToUser := dictSet m.sessionToUser sid uid,
           userCounts := dictSet m.userCounts uid (dictGetD m.userCounts uid 0 + 1) }

/-- `Map.Link`: bind an existing session to a user.  The per-user cap is only
consulted when the user already has a `userCounts` entry, exactly as in the
source. -/
def SMap.Link {K : Type} [DecidableEq K] (m : SMap K) (sid uid : K)
    (extend : Bool) : SMap K × Option SErr :=
  if (dictGet? m.sessionDurations sid).isNone then (m, some .notFound)
  else
    match dictGet? m.userCounts uid with
    | some c =>
      if c = m.maxSessionsPerUser then (m, some .maxUserSessions)
      else (m.linkDo sid uid, none)
    | none => (m.linkDo sid uid, none)

/-- `Map.CreateLinked`: create and immediately link. -/
def SMap.CreateLinked {K : Type} [DecidableEq K] (m : SMap K) (uid sid : K)
    (dur : Int) : SMap K × Option K × Option SErr :=
  if m.totalCount = m.maxSessions then (m, none, some .maxSessions)
  else
    match dictGet? m.userCounts uid with
    | some c =>
      if c = m.maxSessionsPerUser then (m, none, some .maxUserSessions)
      else
        let m2 := { m.linkDo sid uid with
          sessionDurations := dictSet m.sessionDurations sid dur,
          totalCount := m.totalCount + 1 }
        (m2, some sid, none)
    | none =>
      let m2 := { m.linkDo sid uid with
        sessionDurations := dictSet m.sessionDurations sid dur,
        totalCount := m.totalCount + 1 }
      (m2, some sid, none)

/-- `Map.UserID`. -/
def SMap.UserID {K : Type} [DecidableEq K] (m : SMap K) (sid : K) : Option K :=
  dictGet? m.sessionToUser sid

/-- `Map.extend` / `Map.Extend`: the existence check reads `sessionToUser`,
exactly as in the source; on success the result is the `timeouts.Put` result,
which is `nil` on the running scheduler the manager owns. -/
def SMap.Extend {K : Type} [DecidableEq K] (m : SMap K) (sid : K) : Option SErr :=
  if (dictGet? m.sessionToUser sid).isNone then some .notFound else none

/-- `Map.removeSession`: the counter is decremented before any existence
check, exactly as in the source. -/
def SMap.removeSession {K : Type} [DecidableEq K] (m : SMap K) (sid : K)
    (timedOut : Bool) : SMap K × Option SErr :=
  let ma := { m with totalCount := m.totalCount - 1 }
  -- when not timedOut the source also calls timeouts.Delete(sid), whose
  -- result is discarded
  let mb := { ma with sessionDurations := dictDel ma.sessionDurations sid }
  match dictGet? mb.sessionToUser sid with
  | none => (mb, none)
  | some uid =>
    let mc := { mb with sessionToUser := dictDel mb.sessionToUser sid }
    let step :=
      match dictGet? mc.userCounts uid with
      | some l =>
        if l = 0 then (mc, some SErr.bugCountZero)
        else if l = 1 then
          ({ mc with userCounts := dictDel mc.userCounts uid }, (none : Option SErr))
        else ({ mc with userCounts := dictSet mc.userCounts uid (l - 1) }, none)
      | none => (mc, some SErr.bugUserMissing)
    let md := step.1
    match dictGet? md.userToSessions uid with
    | some ss =>
      let ss2 := ss.erase sid
      if ss2.isEmpty then
        ({ md with userToSessions := dictDel md.userToSessions uid }, step.2)
      else ({ md with userToSessions := dictSet md.userToSessions uid ss2 }, step.2)
    | none => (md, step.2)

/-- `Map.RemoveSession`. -/
def SMap.RemoveSession {K : Type} [DecidableEq K] (m : SMap K) (sid : K) :
    SMap K × Option SErr :=
  m.removeSession sid false

/-- `Map.SessionCount`. -/
def SMap.SessionCount {K : Type} (m : SMap K) : Int := m.totalCount

/-- `Map.UserSessionCount`: a missing `userCounts` entry reads as `0`. -/
def SMap.UserSessionCount {K : Type} [DecidableEq K] (m : SMap K) (uid : K) : Int :=
  dictGetD m.userCounts uid 0

/-- The timeout callback handed to the scheduler (`Map.timeout`). -/
def SMap.timeout {K : Type} [DecidableEq K] (m : SMap K) (sid : K) : SMap K :=
  (m.removeSession sid true).1

/-! ### Concrete inputs used by the claim theorems -/

/-- The key "foo". -/
def kfoo : List Nat := [102, 111, 111]

/-- The key "bar" (tail of "foobar" after "foo"). -/
def kbar : List Nat := [98, 97, 114]

/-- The key "foobar". -/
def kfoobar : List Nat := [102, 111, 111, 98, 97, 114]

/-- The key "a". -/
def ka : List Nat := [97]

/-- The key "ab". -/
def kab : List Nat := [97, 98]

/-- The trie holding "foo" ↦ 1 and "foobar" ↦ 2, built by `Put`. -/
def trieFoo : Trie Nat := (((Trie.new Nat).Put kfoo 1).2.2.Put kfoobar 2).2.2

/-- The trie holding "a" ↦ 1 and "ab" ↦ 2, built by `Put`. -/
def trieAb : Trie Nat := (((Trie.new Nat).Put ka 1).2.2.Put kab 2).2.2

/-- A fresh scheduler over `Nat` keys. -/
def ttl0 : TtlState Nat := Ttl.new 0

/-- Scheduler after `Put 1 1000` at time 100: key 1 armed with deadline 1100. -/
def ttl1 : TtlState Nat := (Ttl.Put ttl0 1 1000 100).1

/-- Scheduler after a further `Put 2 2000` at time 200: key 2 queued with
deadline 2200 behind the armed key 1. -/
def ttl2 : TtlState Nat := (Ttl.Put ttl1 2 2000 200).1

/-- State after `Put 2 3000` at time 300 on `ttl2` (key 2 already queued). -/
def ttl2b : TtlState Nat := (Ttl.Put ttl2 2 3000 300).1

/-- The manager used by the C10 witness: cap 2 per user, session 10 linked to
user 1, session 20 linked to user 2. -/
def smapW : SMap Nat :=
  (((SMap.new Nat 10 2).CreateLinked 1 10 60).1.CreateLinked 2 20 60).1

/-- The trie holding "k" ↦ 1, "ke" ↦ 2, "key" ↦ 3, built by `Put`. -/
def trieKeys : Trie Nat :=
  ((((Trie.new Nat).Put [107] 1).2.2.Put [107, 101] 2).2.2.Put [107, 101, 121] 3).2.2

/-! ### C8 development: binary-search correctness -/

theorem binSearchLoop_spec (cmp : Nat → Int) :
    ∀ (fuel i j : Nat), i ≤ j → j - i ≤ fuel →
      (∀ a b : Nat, a ≤ b → b < j → cmp a ≤ 0 → cmp b ≤ 0) →
      i ≤ binSearchLoop cmp fuel i j ∧ binSearchLoop cmp fuel i j ≤ j ∧
        (∀ k, i ≤ k → k < binSearchLoop cmp fuel i j → 0 < cmp k) ∧
        (binSearchLoop cmp fuel i j < j → cmp (binSearchLoop cmp fuel i j) ≤ 0) := by
  intro fuel
  induction fuel with
  | zero =>
    intro i j hij hf _
    have : j = i := by omega
    subst this
    simp [binSearchLoop]
    omega
  | succ f ih =>
    intro i j hij hf hmono
    by_cases hlt : i < j
    · have hstep : binSearchLoop cmp (f + 1) i j =
          (if cmp ((i + j) / 2) > 0 then binSearchLoop cmp f ((i + j) / 2 + 1) j
           else binSearchLoop cmp f i ((i + j) / 2)) := by
        simp [binSearchLoop, hlt]
      set m := (i + j) / 2 with hm
      have him : i ≤ m := by omega
      have hmj : m < j := by omega
      by_cases hc : cmp m > 0
      · rw [hstep, if_pos hc]
        obtain ⟨h1, h2, h3, h4⟩ := ih (m + 1) j (by omega) (by omega) hmono
        refine ⟨by omega, h2, ?_, h4⟩
        intro k hk1 hk2
        by_cases hkm : k ≤ m
        · by_contra hneg
          have hk0 : cmp k ≤ 0 := by omega
          have := hmono k m hkm hmj hk0
          omega
        · exact h3 k (by omega) hk2
      · rw [hstep, if_neg hc]
        have hmono2 : ∀ a b : Nat, a ≤ b → b < m → cmp a ≤ 0 → cmp b ≤ 0 := by
          intro a b hab hbm hca
          exact hmono a b hab (by omega) hca
        obtain ⟨h1, h2, h3, h4⟩ := ih i m him (by omega) hmono2
        refine ⟨h1, by omega, h3, ?_⟩
        intro _
        by_cases hr : binSearchLoop cmp f i m < m
        · exact h4 hr
        · have : binSearchLoop cmp f i m = m := by omega
          rw [this]
          omega
    · have : j = i := by omega
      subst this
      simp [binSearchLoop]
      omega

theorem binSearch_spec (n : Nat) (cmp : Nat → Int)
    (hmono : ∀ a b : Nat, a ≤ b → b < n → cmp a ≤ 0 → cmp b ≤ 0) :
    ((binSearch n cmp).2 = true ↔ ((binSearch n cmp).1 < n ∧ cmp (binSearch n cmp).1 = 0)) ∧
      (∀ k, k < (binSearch n cmp).1 → 0 < cmp k) ∧
      ((binSearch n cmp).1 < n → cmp (binSearch n cmp).1 ≤ 0) ∧
      (binSearch n cmp).1 ≤ n := by
  obtain ⟨h1, h2, h3, h4⟩ := binSearchLoop_spec cmp n 0 n (by omega) (by omega) hmono
  refine ⟨?_, ?_, h4, h2⟩
  · simp [binSearch]
  · intro k hk
    exact h3 k (by omega) hk

theorem pairwise_nodeHead_le {V : Type} (bs : List (TNode V))
    (hp : List.Pairwise (fun a b : TNode V => nodeHead a < nodeHead b) bs)
    (a b : Nat) (hab : a ≤ b) (hb : b < bs.length) :
    nodeHead (bs.getD a (dfltNode V)) ≤ nodeHead (bs.getD b (dfltNode V)) := by
  have ha : a < bs.length := by omega
  rw [List.getD_eq_getElem bs _ ha, List.getD_eq_getElem bs _ hb]
  rcases Nat.lt_or_ge a b with h | h
  · have h2 := List.pairwise_iff_get.mp hp ⟨a, ha⟩ ⟨b, hb⟩ h
    exact Nat.le_of_lt h2
  · have hab2 : a = b := by omega
    subst hab2
    exact Nat.le_refl _

theorem branchCmp_le_zero (r v : Nat) : branchCmp r v ≤ 0 ↔ r ≤ v := by
  unfold branchCmp
  split_ifs with h1 h2 <;> constructor <;> (intro hx; omega)

theorem branchCmp_eq_zero (r v : Nat) : branchCmp r v = 0 ↔ r = v := by
  unfold branchCmp
  split_ifs with h1 h2
  · constructor
    · intro hx; omega
    · intro hx; omega
  · constructor
    · intro hx; exact absurd hx (by decide)
    · intro hx; omega
  · constructor
    · intro hx; omega
    · intro hx; omega

theorem branchCmp_lt_zero (r v : Nat) : branchCmp r v < 0 ↔ r < v := by
  unfold branchCmp
  split_ifs with h1 h2
  · constructor
    · intro hx; exact absurd hx (by decide)
    · intro hx; omega
  · constructor
    · intro hx; omega
    · intro hx; decide
  · constructor
    · intro hx; exact absurd hx (by decide)
    · intro hx; omega

theorem findBranch_mono {V : Type} (bs : List (TNode V)) (r : Nat)
    (hp : List.Pairwise (fun a b : TNode V => nodeHead a < nodeHead b) bs) :
    ∀ a b : Nat, a ≤ b → b < bs.length →
      branchCmp r (nodeHead (bs.getD a (dfltNode V))) ≤ 0 →
      branchCmp r (nodeHead (bs.getD b (dfltNode V))) ≤ 0 := by
  intro a b hab hb hca
  rw [branchCmp_le_zero] at hca ⊢
  have := pairwise_nodeHead_le bs hp a b hab hb
  omega

theorem findBranch_as_binSearch {V : Type} (bs : List (TNode V)) (r : Nat) :
    findBranch bs r =
      binSearch bs.length (fun i => branchCmp r (nodeHead (bs.getD i (dfltNode V)))) := by
  simp [findBranch, nodeHead]

theorem findBranch_found {V : Type} (bs : List (TNode V)) (r : Nat)
    (hp : List.Pairwise (fun a b : TNode V => nodeHead a < nodeHead b) bs)
    (h : (findBranch bs r).2 = true) :
    (findBranch bs r).1 < bs.length ∧
      nodeHead (bs.getD (findBranch bs r).1 (dfltNode V)) = r := by
  rw [findBranch_as_binSearch] at h ⊢
  obtain ⟨h1, _, _, _⟩ := binSearch_spec bs.length _ (findBranch_mono bs r hp)
  obtain ⟨hlt, hc⟩ := h1.mp h
  rw [branchCmp_eq_zero] at hc
  exact ⟨hlt, hc.symm⟩

theorem findBranch_not_found {V : Type} (bs : List (TNode V)) (r : Nat)
    (hp : List.Pairwise (fun a b : TNode V => nodeHead a < nodeHead b) bs)
    (h : (findBranch bs r).2 = false) :
    ∀ b ∈ bs, nodeHead b ≠ r := by
  intro b hb he
  obtain ⟨⟨m, hmb⟩, hmget⟩ := List.mem_iff_get.mp hb
  rw [findBranch_as_binSearch] at h
  obtain ⟨h1, h2, h3, h4⟩ := binSearch_spec bs.length _ (findBranch_mono bs r hp)
  have hcm : branchCmp r (nodeHead (bs.getD m (dfltNode V))) = 0 := by
    rw [List.getD_eq_getElem bs _ hmb]
    rw [branchCmp_eq_zero]
    simp only [List.get_eq_getElem] at hmget
    rw [hmget, he]
  set idx := (binSearch bs.length fun i =>
    branchCmp r (nodeHead (bs.getD i (dfltNode V)))).1 with hidx
  rcases Nat.lt_or_ge m idx with hmi | hmi
  · have := h2 m hmi
    omega
  · have hin : idx < bs.length := by omega
    have hle := h3 hin
    have hne : ¬ (idx < bs.length ∧ branchCmp r (nodeHead (bs.getD idx (dfltNode V))) = 0) := by
      intro hcontra
      have htrue := h1.mpr hcontra
      rw [htrue] at h
      simp at h
    have hcne : branchCmp r (nodeHead (bs.getD idx (dfltNode V))) ≠ 0 := by
      intro hcontra
      exact hne ⟨hin, hcontra⟩
    have hlt : branchCmp r (nodeHead (bs.getD idx (dfltNode V))) < 0 := by omega
    have hle2 : r < nodeHead (bs.getD idx (dfltNode V)) := (branchCmp_lt_zero _ _).mp hlt
    have hmono2 := pairwise_nodeHead_le bs hp idx m hmi hmb
    have hhm : nodeHead (bs.getD m (dfltNode V)) = r := by
      rw [List.getD_eq_getElem bs _ hmb]
      simp only [List.get_eq_getElem] at hmget
      rw [hmget, he]
    omega

/-! ### C8 development: stored-key shape lemmas -/

theorem keysOfList_mem {V : Type} (sc : List Nat) (bs : List (TNode V)) (k : List Nat) :
    k ∈ keysOfList sc bs ↔ ∃ b ∈ bs, k ∈ keysOfNode sc b := by
  induction bs with
  | nil => simp [keysOfList]
  | cons b rest ih =>
    simp only [keysOfList, List.mem_append, ih, List.mem_cons]
    constructor
    · intro h
      rcases h with h | ⟨x, hx, hkx⟩
      · exact ⟨b, Or.inl rfl, h⟩
      · exact ⟨x, Or.inr hx, hkx⟩
    · intro ⟨x, hx, hkx⟩
      rcases hx with hx | hx
      · subst hx; exact Or.inl hkx
      · exact Or.inr ⟨x, hx, hkx⟩

theorem keysOfNode_shape {V : Type} (n : TNode V) :
    ∀ (sc k : List Nat), k ∈ keysOfNode sc n → ∃ rest, k = sc ++ n.pfx ++ rest := by
  cases n with
  | mk p v bs =>
    intro sc k hk
    simp only [keysOfNode, List.mem_append] at hk
    rcases hk with hk | hk
    · have hkv : k = sc ++ p := by
        by_cases hv : v.isSome
        · simpa [hv] using hk
        · simp [hv] at hk
      exact ⟨[], by simp [TNode.pfx, hkv]⟩
    · rw [keysOfList_mem] at hk
      obtain ⟨b, hb, hkb⟩ := hk
      obtain ⟨rest, hrest⟩ := keysOfNode_shape b (sc ++ p) k hkb
      refine ⟨b.pfx ++ rest, ?_⟩
      simp [TNode.pfx, hrest]
termination_by sizeOf n
decreasing_by
  have h1 := List.sizeOf_lt_of_mem hb
  simp only [TNode.mk.sizeOf_spec]
  omega

theorem listWF_mem {V : Type} (bs : List (TNode V)) (hwf : listWF bs = true)
    {b : TNode V} (hb : b ∈ bs) : nodeWF b = true := by
  induction bs with
  | nil => simp at hb
  | cons x rest ih =>
    simp only [listWF, Bool.and_eq_true] at hwf
    rcases List.mem_cons.mp hb with h | h
    · subst h; exact hwf.1
    · exact ih hwf.2 h

theorem nodeWF_parts {V : Type} (p : List Nat) (v : Option V) (bs : List (TNode V))
    (h : nodeWF (.mk p v bs) = true) :
    p ≠ [] ∧ headsSorted bs = true ∧ listWF bs = true := by
  simp only [nodeWF, Bool.and_eq_true] at h
  refine ⟨?_, h.1.2, h.2⟩
  have hx := h.1.1
  cases p with
  | nil => simp at hx
  | cons a l => simp

theorem nodeWF_pfx {V : Type} (b : TNode V) (h : nodeWF b = true) : b.pfx ≠ [] := by
  cases b with
  | mk p v bs =>
    have := (nodeWF_parts p v bs h).1
    simpa [TNode.pfx] using this

theorem headsSorted_pairwise {V : Type} (bs : List (TNode V))
    (h : headsSorted bs = true) :
    List.Pairwise (fun a b : TNode V => nodeHead a < nodeHead b) bs :=
  of_decide_eq_true h

theorem keysOfList_longer {V : Type} (sc : List Nat) (bs : List (TNode V))
    (hwf : listWF bs = true) (k : List Nat) (hk : k ∈ keysOfList sc bs) :
    sc.length < k.length := by
  rw [keysOfList_mem] at hk
  obtain ⟨b, hb, hkb⟩ := hk
  obtain ⟨rest, hrest⟩ := keysOfNode_shape b sc k hkb
  have hwb := listWF_mem bs hwf hb
  have hpne : b.pfx ≠ [] := nodeWF_pfx b hwb
  have hlen : 0 < b.pfx.length := List.length_pos.mpr hpne
  subst hrest
  simp only [List.length_append]
  omega

theorem mem_keysOfNode_self {V : Type} (p sc : List Nat) (v : Option V)
    (bs : List (TNode V)) (hwf : listWF bs = true) :
    ((sc ++ p) ∈ keysOfNode sc (.mk p v bs)) ↔ v.isSome = true := by
  simp only [keysOfNode, List.mem_append]
  constructor
  · intro h
    rcases h with h | h
    · by_cases hv : v.isSome
      · exact hv
      · simp [hv] at h
    · have := keysOfList_longer (sc ++ p) bs hwf _ h
      simp only [List.length_append] at this
      omega
  · intro hv
    exact Or.inl (by simp [hv])

theorem mem_keysOfNode_ext {V : Type} (p sc : List Nat) (v : Option V)
    (bs : List (TNode V)) (r : Nat) (w : List Nat) :
    ((sc ++ (p ++ r :: w)) ∈ keysOfNode sc (.mk p v bs)) ↔
      ((sc ++ (p ++ r :: w)) ∈ keysOfList (sc ++ p) bs) := by
  simp only [keysOfNode, List.mem_append]
  constructor
  · intro h
    rcases h with h | h
    · exfalso
      by_cases hv : v.isSome
      · simp only [hv, if_true, List.mem_singleton] at h
        have := congrArg List.length h
        simp [List.length_append] at this
      · simp [hv] at h
    · exact h
  · intro h
    exact Or.inr h

theorem findBranch_eq_of_head {V : Type} (bs : List (TNode V)) (r : Nat)
    (hp : List.Pairwise (fun a b : TNode V => nodeHead a < nodeHead b) bs)
    {b : TNode V} (hb : b ∈ bs) (hh : nodeHead b = r)
    (hf : (findBranch bs r).2 = true) :
    bs.getD (findBranch bs r).1 (dfltNode V) = b := by
  obtain ⟨hlt, hhead⟩ := findBranch_found bs r hp hf
  obtain ⟨⟨m, hmb⟩, hmget⟩ := List.mem_iff_get.mp hb
  by_cases hmi : m = (findBranch bs r).1
  · subst hmi
    rw [List.getD_eq_getElem bs _ hlt]
    simp only [List.get_eq_getElem] at hmget
    exact hmget
  · exfalso
    have e1 : bs.getD (findBranch bs r).1 (dfltNode V) = bs.get ⟨(findBranch bs r).1, hlt⟩ := by
      rw [List.getD_eq_getElem bs _ hlt]
      simp only [List.get_eq_getElem]
    rw [e1] at hhead
    have hhm : nodeHead (bs.get ⟨m, hmb⟩) = r := by rw [hmget, hh]
    rcases Nat.lt_or_ge m (findBranch bs r).1 with h | h
    · have h1 := List.pairwise_iff_get.mp hp ⟨m, hmb⟩ ⟨(findBranch bs r).1, hlt⟩ h
      omega
    · have hgt : (findBranch bs r).1 < m := by omega
      have h1 := List.pairwise_iff_get.mp hp ⟨(findBranch bs r).1, hlt⟩ ⟨m, hmb⟩ hgt
      omega

theorem mem_keysOfList_split {V : Type} (sc : List Nat) (bs : List (TNode V))
    (hs : headsSorted bs = true) (hwf : listWF bs = true)
    (r : Nat) (w : List Nat) :
    ((sc ++ r :: w) ∈ keysOfList sc bs ↔
      (findBranch bs r).2 = true ∧
        (sc ++ r :: w) ∈ keysOfNode sc (bs.getD (findBranch bs r).1 (dfltNode V))) := by
  have hp := headsSorted_pairwise bs hs
  constructor
  · intro h
    obtain ⟨b, hb, hkb⟩ := (keysOfList_mem sc bs _).mp h
    obtain ⟨rest, hrest⟩ := keysOfNode_shape b sc _ hkb
    have hwb := listWF_mem bs hwf hb
    have hpne : b.pfx ≠ [] := nodeWF_pfx b hwb
    have hcons : r :: w = b.pfx ++ rest := by
      have h2 : sc ++ r :: w = sc ++ (b.pfx ++ rest) := by simpa using hrest
      exact List.append_cancel_left h2
    have hhb : nodeHead b = r := by
      cases hpx : b.pfx with
      | nil => exact absurd hpx hpne
      | cons a l =>
        rw [hpx] at hcons
        simp only [List.cons_append, List.cons.injEq] at hcons
        simp [nodeHead, hpx, hcons.1]
    have hf : (findBranch bs r).2 = true := by
      by_contra hnf
      have hf2 : (findBranch bs r).2 = false := by
        revert hnf
        cases (findBranch bs r).2 <;> simp
      exact findBranch_not_found bs r hp hf2 b hb hhb
    have heq := findBranch_eq_of_head bs r hp hb hhb hf
    rw [heq]
    exact ⟨hf, hkb⟩
  · intro hx
    obtain ⟨hf, hmem⟩ := hx
    obtain ⟨hlt, _⟩ := findBranch_found bs r hp hf
    have hmem2 : bs.getD (findBranch bs r).1 (dfltNode V) ∈ bs := by
      rw [List.getD_eq_getElem bs _ hlt]
      exact List.getElem_mem hlt
    exact (keysOfList_mem sc bs _).mpr ⟨_, hmem2, hmem⟩

theorem depth_mem {V : Type} (bs : List (TNode V)) {b : TNode V} (hb : b ∈ bs) :
    TNode.depth b ≤ depthList bs := by
  induction bs with
  | nil => simp at hb
  | cons x rest ih =>
    rcases List.mem_cons.mp hb with h | h
    · subst h
      simp only [depthList]
      exact Nat.le_max_left _ _
    · simp only [depthList]
      exact Nat.le_trans (ih h) (Nat.le_max_right _ _)

theorem prefixesGo_consume {V : Type} (n : TNode V) (scanned : List Nat) :
    ∀ (prest qry : List Nat) (fuel : Nat), qry.length + 1 ≤ fuel →
      prefixesGo fuel n scanned qry prest =
        (if prest.length < qry.length ∧ prest <+: qry then
          prefixesGo (fuel - prest.length) n scanned (qry.drop prest.length) []
        else []) := by
  intro prest
  induction prest with
  | nil =>
    intro qry fuel hf
    cases qry with
    | nil =>
      obtain ⟨f, rfl⟩ : ∃ f, fuel = f + 1 := ⟨fuel - 1, by omega⟩
      simp [prefixesGo]
    | cons q qs => simp
  | cons p ps ih =>
    intro qry fuel hf
    cases qry with
    | nil =>
      obtain ⟨f, rfl⟩ : ∃ f, fuel = f + 1 := ⟨fuel - 1, by omega⟩
      simp [prefixesGo]
    | cons q qs =>
      obtain ⟨f, rfl⟩ : ∃ f, fuel = f + 1 := ⟨fuel - 1, by omega⟩
      by_cases hqp : q = p
      · subst hqp
        have hstep : prefixesGo (f + 1) n scanned (q :: qs) (q :: ps) =
            prefixesGo f n scanned qs ps := by simp [prefixesGo]
        rw [hstep, ih qs f (by simp at hf ⊢; omega)]
        by_cases hc : ps.length < qs.length ∧ ps <+: qs
        · rw [if_pos hc]
          rw [if_pos (by
            refine ⟨by simp; omega, ?_⟩
            rw [List.cons_prefix_cons]
            exact ⟨rfl, hc.2⟩)]
          have e1 : f - ps.length = f + 1 - (q :: ps).length := by simp
          have e2 : qs.drop ps.length = (q :: qs).drop (q :: ps).length := by simp
          rw [e1, e2]
        · rw [if_neg hc]
          rw [if_neg (by
            intro hcontra
            obtain ⟨h1, h2⟩ := hcontra
            rw [List.cons_prefix_cons] at h2
            exact hc ⟨by simp at h1; omega, h2.2⟩)]
      · have hstep : prefixesGo (f + 1) n scanned (q :: qs) (p :: ps) = [] := by
          simp [prefixesGo, hqp]
        rw [hstep]
        rw [if_neg (by
          intro hcontra
          obtain ⟨_, h2⟩ := hcontra
          rw [List.cons_prefix_cons] at h2
          exact hqp h2.1.symm)]

theorem not_mem_keysOfNode_of_short {V : Type} (n : TNode V) (sc c : List Nat)
    (hlen : c.length < sc.length + n.pfx.length) : c ∉ keysOfNode sc n := by
  intro hmem
  obtain ⟨rest, hrest⟩ := keysOfNode_shape n sc c hmem
  subst hrest
  simp only [List.length_append] at hlen
  omega

theorem mem_keysOfNode_step {V : Type} (p sc : List Nat) (v : Option V)
    (bs : List (TNode V)) (hhs : headsSorted bs = true) (hlw : listWF bs = true)
    (q : Nat) (w : List Nat) :
    ((sc ++ (p ++ q :: w)) ∈ keysOfNode sc (.mk p v bs)) ↔
      ((findBranch bs q).2 = true ∧
        (sc ++ (p ++ q :: w)) ∈
          keysOfNode (sc ++ p) (bs.getD (findBranch bs q).1 (dfltNode V))) := by
  rw [mem_keysOfNode_ext]
  rw [show sc ++ (p ++ q :: w) = (sc ++ p) ++ q :: w by simp]
  exact mem_keysOfList_split (sc ++ p) bs hhs hlw q w

theorem prefixesGo_spec {V : Type} (n : TNode V) :
    ∀ (scanned qry : List Nat) (fuel : Nat),
      nodeWF n = true →
      qry.length + TNode.depth n + 1 ≤ fuel →
      prefixesGo fuel n scanned qry n.pfx =
        ((List.range qry.length).map (fun i => scanned ++ qry.take i)).filter
          (fun c => decide (c ∈ keysOfNode scanned n)) := by
  cases n with
  | mk p v bs =>
    intro scanned qry fuel hwf hfuel
    obtain ⟨hpne, hhs, hlw⟩ := nodeWF_parts p v bs hwf
    have hpfx : (TNode.mk p v bs).pfx = p := rfl
    rw [hpfx]
    rw [prefixesGo_consume (TNode.mk p v bs) scanned p qry fuel (by omega)]
    by_cases hcond : p.length < qry.length ∧ p <+: qry
    · -- the node prefix is a proper prefix of the query: emit and descend
      rw [if_pos hcond]
      obtain ⟨hlen, hpfx2⟩ := hcond
      obtain ⟨qryRem, hqry⟩ := hpfx2
      have hremne : qryRem ≠ [] := by
        intro h
        subst h
        have hql := congrArg List.length hqry
        simp at hql
        omega
      obtain ⟨q, qs, rfl⟩ : ∃ q qs, qryRem = q :: qs := by
        cases qryRem with
        | nil => exact absurd rfl hremne
        | cons q qs => exact ⟨q, qs, rfl⟩
      subst hqry
      rw [List.drop_left p (q :: qs)]
      obtain ⟨f, hfeq⟩ : ∃ f, fuel - p.length = f + 1 := by
        refine ⟨fuel - p.length - 1, ?_⟩
        simp only [List.length_append] at hfuel
        omega
      rw [hfeq]
      -- one unfolding step of the walk at the exhausted node prefix
      have hstep : prefixesGo (f + 1) (TNode.mk p v bs) scanned (q :: qs) [] =
          (if v.isSome then [scanned ++ p] else []) ++
            (if (findBranch bs q).2 then
              prefixesGo f (bs.getD (findBranch bs q).1 (dfltNode V)) (scanned ++ p)
                (q :: qs) (bs.getD (findBranch bs q).1 (dfltNode V)).pfx
            else []) := by
        by_cases hfb : (findBranch bs q).2
        · simp [prefixesGo, TNode.branches, TNode.val, TNode.pfx, hfb]
        · simp [prefixesGo, TNode.branches, TNode.val, TNode.pfx, hfb]
      rw [hstep]
      -- reshape the specification side: split the range at p.length
      have hR1 : (List.range (p ++ q :: qs).length).map
            (fun i => scanned ++ (p ++ q :: qs).take i) =
          ((List.range p.length).map (fun i => scanned ++ (p ++ q :: qs).take i)) ++
            ((List.range (q :: qs).length).map
              (fun i2 => scanned ++ (p ++ (q :: qs).take i2))) := by
        rw [List.length_append, List.range_add, List.map_append, List.map_map]
        congr 1
        apply List.map_congr_left
        intro i2 hi2
        simp only [Function.comp_apply]
        congr 1
        simp [List.take_append_eq_append_take]
      rw [hR1, List.filter_append]
      -- the short candidates are never stored keys
      have hA : ((List.range p.length).map (fun i => scanned ++ (p ++ q :: qs).take i)).filter
          (fun c => decide (c ∈ keysOfNode scanned (TNode.mk p v bs))) = [] := by
        rw [List.filter_eq_nil_iff]
        intro c hc
        simp only [List.mem_map, List.mem_range] at hc
        obtain ⟨i, hi, rfl⟩ := hc
        simp only [decide_eq_true_eq]
        apply not_mem_keysOfNode_of_short
        rw [hpfx]
        have htk : ((p ++ q :: qs).take i).length = i := by
          rw [List.length_take, List.length_append]
          simp
          omega
        rw [List.length_append, htk]
        omega
      rw [hA, List.nil_append]
      -- peel the first candidate (the node's own key) off the remaining range
      have hR2 : (List.range (q :: qs).length).map
            (fun i2 => scanned ++ (p ++ (q :: qs).take i2)) =
          (scanned ++ p) :: (List.range qs.length).map
            (fun i3 => scanned ++ (p ++ q :: qs.take i3)) := by
        rw [show (q :: qs).length = qs.length + 1 from rfl, List.range_succ_eq_map,
          List.map_cons, List.map_map]
        congr 1
        · simp
      rw [hR2]
      rw [List.filter_cons]
      have hhead : (decide ((scanned ++ p) ∈ keysOfNode scanned (TNode.mk p v bs))) =
          v.isSome := by
        by_cases hv : v.isSome
        · simp [decide_eq_true_eq, (mem_keysOfNode_self p scanned v bs hlw).mpr hv, hv]
        · simp only [hv, decide_eq_false_iff_not]
          intro hmem
          exact hv ((mem_keysOfNode_self p scanned v bs hlw).mp hmem)
      rw [hhead]
      by_cases hfb : (findBranch bs q).2 = true
      · -- descend into the matching branch
        have hp2 := headsSorted_pairwise bs hhs
        obtain ⟨hidxlt, _⟩ := findBranch_found bs q hp2 hfb
        have hchildmem : bs.getD (findBranch bs q).1 (dfltNode V) ∈ bs := by
          rw [List.getD_eq_getElem bs _ hidxlt]
          exact List.getElem_mem hidxlt
        have hchildwf := listWF_mem bs hlw hchildmem
        have hdep : TNode.depth (bs.getD (findBranch bs q).1 (dfltNode V)) ≤ depthList bs :=
          depth_mem bs hchildmem
        have hfuel2 : (q :: qs).length +
            TNode.depth (bs.getD (findBranch bs q).1 (dfltNode V)) + 1 ≤ f := by
          have hdn : TNode.depth (TNode.mk p v bs) = 1 + depthList bs := rfl
          rw [hdn] at hfuel
          simp only [List.length_append] at hfuel
          omega
        have hIH := prefixesGo_spec (bs.getD (findBranch bs q).1 (dfltNode V))
          (scanned ++ p) (q :: qs) f hchildwf hfuel2
        rw [if_pos hfb, hIH]
        -- the child's spec list: its first candidate is never a key of the child
        have hR3 : (List.range (q :: qs).length).map
              (fun i => (scanned ++ p) ++ (q :: qs).take i) =
            (scanned ++ p) :: (List.range qs.length).map
              (fun i3 => (scanned ++ p) ++ q :: qs.take i3) := by
          rw [show (q :: qs).length = qs.length + 1 from rfl, List.range_succ_eq_map,
            List.map_cons, List.map_map]
          congr 1
          · simp
        rw [hR3, List.filter_cons_of_neg (by
          simp only [decide_eq_true_eq]
          apply not_mem_keysOfNode_of_short
          have := List.length_pos.mpr (nodeWF_pfx _ hchildwf)
          omega)]
        -- the two tail filters agree pointwise
        have htails : (List.filter (fun c => decide (c ∈ keysOfNode scanned (TNode.mk p v bs)))
              ((List.range qs.length).map (fun i3 => scanned ++ (p ++ q :: qs.take i3)))) =
            (List.filter (fun c => decide (c ∈
                keysOfNode (scanned ++ p) (bs.getD (findBranch bs q).1 (dfltNode V))))
              ((List.range qs.length).map
                (fun i3 => (scanned ++ p) ++ q :: qs.take i3))) := by
          rw [show (fun i3 => (scanned ++ p) ++ q :: qs.take i3) =
            (fun i3 => scanned ++ (p ++ q :: qs.take i3)) by funext i3; simp]
          apply List.filter_congr
          intro c hc
          simp only [List.mem_map, List.mem_range] at hc
          obtain ⟨i3, hi3, rfl⟩ := hc
          have hiff := mem_keysOfNode_step p scanned v bs hhs hlw q (qs.take i3)
          rw [decide_eq_decide]
          constructor
          · intro hx
            exact (hiff.mp hx).2
          · intro hx
            exact hiff.mpr ⟨hfb, hx⟩
        rw [htails]
        cases hv : v.isSome <;> simp [hv]
      · -- no matching branch: no further keys lie on the walk
        have hfb2 : (findBranch bs q).2 = false := by
          revert hfb
          cases (findBranch bs q).2 <;> simp
        rw [if_neg hfb, List.append_nil]
        have htail0 : (List.filter (fun c => decide (c ∈ keysOfNode scanned (TNode.mk p v bs)))
            ((List.range qs.length).map (fun i3 => scanned ++ (p ++ q :: qs.take i3)))) = [] := by
          rw [List.filter_eq_nil_iff]
          intro c hc
          simp only [List.mem_map, List.mem_range] at hc
          obtain ⟨i3, hi3, rfl⟩ := hc
          simp only [decide_eq_true_eq]
          intro hx
          have := (mem_keysOfNode_step p scanned v bs hhs hlw q (qs.take i3)).mp hx
          rw [hfb2] at this
          exact absurd this.1 (by simp)
        rw [htail0]
    · -- the node prefix does not properly lead into the query: nothing is found
      rw [if_neg hcond]
      symm
      rw [List.filter_eq_nil_iff]
      intro c hc
      simp only [List.mem_map, List.mem_range] at hc
      obtain ⟨i, hi, rfl⟩ := hc
      simp only [decide_eq_true_eq]
      intro hmem
      obtain ⟨rest, hrest⟩ := keysOfNode_shape _ _ _ hmem
      rw [hpfx] at hrest
      have h2 : qry.take i = p ++ rest := by
        have h3 : scanned ++ qry.take i = scanned ++ (p ++ rest) := by
          simpa using hrest
        exact List.append_cancel_left h3
      apply hcond
      have hpl : p.length ≤ i := by
        have h3 := congrArg List.length h2
        rw [List.length_take, List.length_append] at h3
        omega
      constructor
      · omega
      · exact List.IsPrefix.trans ⟨rest, h2.symm⟩ (List.take_prefix i qry)
termination_by sizeOf n
decreasing_by
  have h1 := List.sizeOf_lt_of_mem hchildmem
  simp only [TNode.mk.sizeOf_spec]
  omega

theorem trieWF_parts {V : Type} (rp : List Nat) (rv : Option V) (rbs : List (TNode V))
    (h : Trie.WF ⟨.mk rp rv rbs⟩ = true) :
    rp = [] ∧ rv = none ∧ headsSorted rbs = true ∧ listWF rbs = true := by
  simp only [Trie.WF, TNode.pfx, TNode.val, TNode.branches, Bool.and_eq_true,
    List.isEmpty_iff, Option.isNone_iff_eq_none] at h
  exact ⟨h.1.1.1, h.1.1.2, h.1.2, h.2⟩

theorem keys_of_root {V : Type} (rbs : List (TNode V)) :
    Trie.keys (⟨.mk [] none rbs⟩ : Trie V) = keysOfList [] rbs := by
  simp [Trie.keys, keysOfNode, TNode.branches]

/-- C8: the `Prefixes` contract holds.  For every well-formed trie and every
non-empty query `s`, `Prefixes s` returns exactly the stored keys that are
strict prefixes of `s`, ordered from shortest to longest, and never includes
`s` itself. -/
theorem claim8_prefixes_correct {V : Type} (t : Trie V) (s : List Nat)
    (hwf : t.WF = true) (hs : s ≠ []) :
    t.Prefixes s = t.prefixesSpec s := by
  obtain ⟨root⟩ := t
  cases root with
  | mk rp rv rbs =>
    obtain ⟨hrp, hrv, hhs, hlw⟩ := trieWF_parts rp rv rbs hwf
    subst hrp
    subst hrv
    obtain ⟨q, qs, rfl⟩ : ∃ q qs, s = q :: qs := by
      cases s with
      | nil => exact absurd rfl hs
      | cons q qs => exact ⟨q, qs, rfl⟩
    have hp2 := headsSorted_pairwise rbs hhs
    rw [Trie.prefixesSpec, keys_of_root, strictPrefixList]
    show (if (findBranch rbs q).2 then
        prefixesGo ((q :: qs).length +
            TNode.depth (rbs.getD (findBranch rbs q).1 (dfltNode V)) + 1)
          (rbs.getD (findBranch rbs q).1 (dfltNode V)) [] (q :: qs)
          (rbs.getD (findBranch rbs q).1 (dfltNode V)).pfx
      else []) = _
    by_cases hfb : (findBranch rbs q).2 = true
    · obtain ⟨hidxlt, _⟩ := findBranch_found rbs q hp2 hfb
      have hchildmem : rbs.getD (findBranch rbs q).1 (dfltNode V) ∈ rbs := by
        rw [List.getD_eq_getElem rbs _ hidxlt]
        exact List.getElem_mem hidxlt
      have hchildwf := listWF_mem rbs hlw hchildmem
      rw [if_pos hfb]
      rw [prefixesGo_spec (rbs.getD (findBranch rbs q).1 (dfltNode V)) [] (q :: qs) _
        hchildwf (Nat.le_refl _)]
      apply List.filter_congr
      intro c hc
      simp only [List.mem_map, List.mem_range] at hc
      obtain ⟨i, hi, rfl⟩ := hc
      rw [decide_eq_decide]
      simp only [List.nil_append]
      cases i with
      | zero =>
        simp only [List.take_zero]
        constructor
        · intro hx
          exact absurd (not_mem_keysOfNode_of_short _ [] [] (by
            have := List.length_pos.mpr (nodeWF_pfx _ hchildwf)
            simpa using this) hx) (by simp)
        · intro hx
          have := keysOfList_longer [] rbs hlw [] hx
          simp at this
      | succ i2 =>
        simp only [List.take_succ_cons]
        have hsplit := mem_keysOfList_split [] rbs hhs hlw q (qs.take i2)
        simp only [List.nil_append] at hsplit
        constructor
        · intro hx
          exact hsplit.mpr ⟨hfb, hx⟩
        · intro hx
          exact (hsplit.mp hx).2
    · rw [if_neg hfb]
      have hfb2 : (findBranch rbs q).2 = false := by
        revert hfb
        cases (findBranch rbs q).2 <;> simp
      symm
      rw [List.filter_eq_nil_iff]
      intro c hc
      simp only [List.mem_map, List.mem_range] at hc
      obtain ⟨i, hi, rfl⟩ := hc
      simp only [decide_eq_true_eq]
      cases i with
      | zero =>
        simp only [List.take_zero]
        intro hx
        have := keysOfList_longer [] rbs hlw [] hx
        simp at this
      | succ i2 =>
        simp only [List.take_succ_cons]
        intro hx
        have hsplit := mem_keysOfList_split [] rbs hhs hlw q (qs.take i2)
        simp only [List.nil_append] at hsplit
        rw [hfb2] at hsplit
        exact absurd (hsplit.mp hx).1 (by simp)

/-- C8 witness: the contract applied to a concrete trie and query "keys". -/
theorem claim8_prefixes_correct_witness :
    (Trie.WF trieKeys = true ∧ ([107, 101, 121, 115] : List Nat) ≠ []) ∧
      Trie.Prefixes trieKeys [107, 101, 121, 115] =
        Trie.prefixesSpec trieKeys [107, 101, 121, 115] :=
  ⟨⟨by decide, by decide⟩,
    claim8_prefixes_correct trieKeys [107, 101, 121, 115] (by decide) (by decide)⟩

/-! ### C1 — trie delete compaction -/

/-- C1: the compaction invariant fails on the code.  Putting "foo" ↦ 1 and
"foobar" ↦ 2 and deleting "foo" with the merging `Delete` returns `(1, true)`
but leaves the internal node "foo" with no value and exactly one child "bar":
the node is not merged into "foobar", so after the delete the tree does
contain a valueless single-child node (and the non-merging `Delete` of the
other trie file never compacts at all). -/
theorem claim1_delete_leaves_uncompacted_node :
    (trieFoo.DeleteM kfoo).1 = some 1 ∧
    ((trieFoo.DeleteM kfoo).2).root.branches =
      [TNode.mk kfoo none [TNode.mk kbar (some 2) []]] ∧
    ((trieFoo.DeleteM kfoo).2).Compact = false ∧
    ((trieFoo.DeleteM kfoo).2).Get kfoobar = some 2 :=
  ⟨by decide, rfl, by decide, by decide⟩

/-! ### C9 — trie delete frame property -/

/-- C9: the frame property fails on the code.  With "a" ↦ 1 and "ab" ↦ 2
stored, `Delete("ab")` (the `trie.go` variant) returns the deleted value but
also removes the ancestor node "a" even though it still holds value 1 — the
backtracking loop deletes every ancestor whose branch list became empty
without consulting `HasValue` — so `Get("a")` flips from `(1, true)` to
not-found although only "ab" was deleted. -/
theorem claim9_delete_drops_sibling_key :
    trieAb.Get ka = some 1 ∧
    (trieAb.Delete kab).1 = some 2 ∧
    ((trieAb.Delete kab).2).Get kab = none ∧
    ((trieAb.Delete kab).2).Get ka = none :=
  ⟨by decide, by decide, by decide, by decide⟩

/-! ### C3 — TTL Delete error contract -/

/-- C3: `Delete` of a key queued behind a different armed key fails.  On a
running scheduler with key 1 armed (deadline 1100) and key 2 queued (deadline
2200), `Delete(2)` returns `NotFound` and leaves key 2's entry in the queue:
the worker's delete branch looks the deadline up under the armed-key variable
(`self.dict[key]`) instead of the key being deleted (`k`), finds nothing, and
reports `NotFound`. -/
theorem claim3_delete_queued_key_not_found :
    Ttl.pending ttl2 2 = true ∧
    (Ttl.Delete ttl2 2 300).2.1 = some TtlErr.notFound ∧
    Ttl.pending (Ttl.Delete ttl2 2 300).1 2 = true ∧
    (Ttl.Delete ttl2 2 300).1.queue = [(2200, 2)] :=
  ⟨by decide, by decide, by decide, by decide⟩

/-! ### C2 — TTL key uniqueness -/

/-- C2: key uniqueness fails.  With key 1 armed and key 2 queued, a second
`Put(2, 3000)` cannot cancel the old entry (the internal delete finds nothing
because it consults `dict` under the armed-key variable) and inserts a second
entry for key 2, so key 2 occupies two pending entries at once; the stale
entry then fires the callback at its old deadline 2200 — before the
replacement deadline 3300 — so the callback fires twice for key 2. -/
theorem claim2_put_duplicates_pending_key :
    Ttl.pendingCount ttl2 2 = 1 ∧
    Ttl.pendingCount ttl2b 2 = 2 ∧
    ttl2b.queue = [(2200, 2), (3300, 2)] ∧
    (Ttl.tick ttl2b 1100).2 = [1] ∧
    (Ttl.tick (Ttl.tick ttl2b 1100).1 2200).2 = [2] ∧
    (Ttl.tick (Ttl.tick (Ttl.tick ttl2b 1100).1 2200).1 3300).2 = [2] :=
  ⟨by decide, by decide, by decide, by decide, by decide, by decide⟩

/-! ### C6 — TTL non-positive duration -/

/-- C6: the non-positive-duration contract fails when the key is already
queued behind a different armed key.  On `ttl2` (key 1 armed, key 2 queued at
deadline 2200), `Put(2, -50)` at time 300 returns `nil` and fires the
callback for key 2 immediately, but the internal delete cannot find the old
entry (armed-key-variable lookup), so key 2 *remains pending* and its stale
entry fires the callback a second time at deadline 2200. -/
theorem claim6_immediate_expiry_leaves_stale_entry :
    (Ttl.Put ttl2 2 (-50) 300).2.1 = none ∧
    (Ttl.Put ttl2 2 (-50) 300).2.2 = [2] ∧
    Ttl.pending (Ttl.Put ttl2 2 (-50) 300).1 2 = true ∧
    (Ttl.tick (Ttl.tick (Ttl.Put ttl2 2 (-50) 300).1 1100).1 2200).2 = [2] :=
  ⟨by decide, by decide, by decide, by decide⟩

/-! ### C4 — session counter invariants -/

/-- C4: the counter invariant fails.  On a fresh manager, removing a session
ID that was never created returns `nil` and leaves `totalCount` at `-1` while
zero sessions are registered: `removeSession` decrements the counter before
checking that the session exists. -/
theorem claim4_remove_unknown_breaks_counter :
    ((SMap.new Nat 10 3).RemoveSession 99).2 = none ∧
    ((SMap.new Nat 10 3).RemoveSession 99).1.SessionCount = -1 ∧
    ((SMap.new Nat 10 3).RemoveSession 99).1.sessionDurations = [] ∧
    ((SMap.new Nat 10 3).RemoveSession 99).1.sessionToUser = [] :=
  ⟨by decide, by decide, by decide, by decide⟩

/-! ### C5 — Extend contract -/

/-- C5: `Extend` fails on an existing unlinked session.  A session created by
`Create` and never linked exists (`sessionDurations` holds it) but `extend`
checks `sessionToUser`, where unlinked sessions never appear, so `Extend`
returns `NotFound` for it. -/
theorem claim5_extend_unlinked_not_found :
    (dictGet? ((SMap.new Nat 10 3).Create 7 60).1.sessionDurations 7).isSome = true ∧
    ((SMap.new Nat 10 3).Create 7 60).2.2 = none ∧
    SMap.Extend ((SMap.new Nat 10 3).Create 7 60).1 7 = some SErr.notFound :=
  ⟨by decide, by decide, by decide⟩

/-! ### C7 — session quota atomicity -/

/-- C7: the per-user quota is not enforced for a user with no sessions.  With
`max_per_user = 0`, `CreateLinked` for a fresh user succeeds and mutates the
state (a session is created and the user's count becomes 1) instead of
returning `MaxUserSessions`: the cap check is skipped whenever the user has
no `userCounts` entry yet. -/
theorem claim7_user_cap_zero_not_enforced :
    ((SMap.new Nat 10 0).CreateLinked 1 5 60).2.2 = none ∧
    ((SMap.new Nat 10 0).CreateLinked 1 5 60).2.1 = some 5 ∧
    ((SMap.new Nat 10 0).CreateLinked 1 5 60).1.totalCount = 1 ∧
    ((SMap.new Nat 10 0).CreateLinked 1 5 60).1.UserSessionCount 1 = 1 :=
  ⟨by decide, by decide, by decide, by decide⟩

/-! ### C10 — Link never unlinks -/

/-- Lookup after setting the same key. -/
theorem dictGet?_set_self {K A : Type} [DecidableEq K]
    (d : List (K × A)) (k : K) (a : A) : dictGet? (dictSet d k a) k = some a := by
  induction d with
  | nil => simp [dictSet, dictGet?]
  | cons hd tl ih =>
    obtain ⟨k0, a0⟩ := hd
    by_cases h : k0 = k <;> simp [dictSet, dictGet?, h, ih]

/-- Lookup after setting a different key. -/
theorem dictGet?_set_ne {K A : Type} [DecidableEq K]
    (d : List (K × A)) (k q : K) (a : A) (h : k ≠ q) :
    dictGet? (dictSet d k a) q = dictGet? d q := by
  induction d with
  | nil => simp [dictSet, dictGet?, h]
  | cons hd tl ih =>
    obtain ⟨k0, a0⟩ := hd
    by_cases h0 : k0 = k
    · subst h0
      simp [dictSet, dictGet?, h]
    · simp [dictSet, dictGet?, h0, ih]

/-- C10 counterexample: as stated the claim is false, because `Link` checks
the target user's cap first.  With `max_per_user = 1`, session 10 linked to
user 1 and user 2 already owning one session, `Link(10, 2, false)` returns
`MaxUserSessions`, not `nil`. -/
theorem claim10_link_at_cap_errors :
    dictGet? ((((SMap.new Nat 10 1).CreateLinked 1 10 60).1.CreateLinked 2 20 60).1).sessionToUser 10 =
      some 1 ∧
    (((((SMap.new Nat 10 1).CreateLinked 1 10 60).1.CreateLinked 2 20 60).1).Link 10 2 false).2 =
      some SErr.maxUserSessions :=
  ⟨by decide, by decide⟩

/-- C10 (amended): provided user `u2` is not at its cap, `Link(s, u2, ext)`
on a session currently linked to `u1 ≠ u2` returns `nil`, repoints the
session at `u2` and bumps `u2`'s counter, but removes nothing from `u1`'s
bookkeeping: `u1`'s session set and session count are unchanged, so the
session is counted under both users. -/
theorem claim10_link_never_unlinks {K : Type} [DecidableEq K]
    (m : SMap K) (s u1 u2 : K) (ext : Bool)
    (hdur : (dictGet? m.sessionDurations s).isSome = true)
    (hlink : dictGet? m.sessionToUser s = some u1)
    (hne : u2 ≠ u1)
    (hcap : dictGet? m.userCounts u2 ≠ some m.maxSessionsPerUser) :
    (m.Link s u2 ext).2 = none ∧
    dictGet? (m.Link s u2 ext).1.sessionToUser s = some u2 ∧
    dictGetD (m.Link s u2 ext).1.userCounts u2 0 = dictGetD m.userCounts u2 0 + 1 ∧
    dictGet? (m.Link s u2 ext).1.userToSessions u1 = dictGet? m.userToSessions u1 ∧
    (m.Link s u2 ext).1.UserSessionCount u1 = m.UserSessionCount u1 := by
  have hd : (dictGet? m.sessionDurations s).isNone = false := by
    cases hv : dictGet? m.sessionDurations s with
    | none => rw [hv] at hdur; simp at hdur
    | some _ => simp
  have hgoal :
      (m.Link s u2 ext).1 = m.linkDo s u2 ∧ (m.Link s u2 ext).2 = none := by
    unfold SMap.Link
    rw [hd]
    cases hc : dictGet? m.userCounts u2 with
    | none => simp
    | some c =>
      have : ¬ c = m.maxSessionsPerUser := by
        intro he; exact hcap (by rw [hc, he])
      simp [this]
  obtain ⟨h1, h2⟩ := hgoal
  refine ⟨h2, ?_, ?_, ?_, ?_⟩
  · rw [h1]; unfold SMap.linkDo; simp [dictGet?_set_self]
  · rw [h1]; unfold SMap.linkDo; simp [dictGetD, dictGet?_set_self]
  · rw [h1]; unfold SMap.linkDo; simp [dictGet?_set_ne _ _ _ _ hne]
  · rw [h1]; unfold SMap.linkDo
    unfold SMap.UserSessionCount
    simp [dictGetD, dictGet?_set_ne _ _ _ _ hne]

/-- C10 witness: the amended theorem applied at a concrete reachable state. -/
theorem claim10_link_never_unlinks_witness :
    ((dictGet? smapW.sessionDurations 10).isSome = true ∧
      dictGet? smapW.sessionToUser 10 = some 1 ∧
      (2 : Nat) ≠ 1 ∧
      dictGet? smapW.userCounts 2 ≠ some smapW.maxSessionsPerUser) ∧
    ((smapW.Link 10 2 false).2 = none ∧
      dictGet? (smapW.Link 10 2 false).1.sessionToUser 10 = some 2 ∧
      dictGetD (smapW.Link 10 2 false).1.userCounts 2 0 =
        dictGetD smapW.userCounts 2 0 + 1 ∧
      dictGet? (smapW.Link 10 2 false).1.userToSessions 1 =
        dictGet? smapW.userToSessions 1 ∧
      (smapW.Link 10 2 false).1.UserSessionCount 1 = smapW.UserSessionCount 1) :=
  ⟨⟨by decide, by decide, by decide, by decide⟩,
    claim10_link_never_unlinks smapW 10 1 2 false (by decide) (by decide)
      (by decide) (by decide)⟩
